import Mathlib

/-!  A shallow embedding of the Olympic-athletes bios cleaning pipeline
(`notebooks/bios_cleaned.ipynb`): the pandas string primitives the notebook
relies on (`str.split(..., expand=True)`, `str.replace`, `str.strip`,
`Series.replace`), the Born and Measurements parsers, the missing-value
policy and the final schema projection, together with theorems settling the
specification claims.  A cell value is a `List Char`; a missing value (pandas
`NaN`) is `none`.  -/

namespace Bios

/-- Cell values are lists of characters; a missing value (NaN) is `none`. -/
abbrev Str := List Char

/-- First occurrence of `pat` in `s` (Python substring search): returns the
text strictly before the match and the text strictly after it. -/
def splitFirst (pat : Str) : Str → Option (Str × Str)
  | [] => none
  | c :: rest =>
    if pat.isPrefixOf (c :: rest) then some ([], (c :: rest).drop pat.length)
    else (splitFirst pat rest).map fun p => (c :: p.1, p.2)

/-- Python `pat in s`. -/
def containsSeq (pat s : Str) : Bool := (splitFirst pat s).isSome

/-- Python `s.split(pat)`, fuelled so that it reduces by kernel computation.
The fuel is always instantiated above the number of produced parts. -/
def pySplitF (pat : Str) : Nat → Str → List Str
  | 0, s => [s]
  | fuel + 1, s =>
    match splitFirst pat s with
    | none => [s]
    | some (b, a) => b :: pySplitF pat fuel a

/-- Python `s.split(pat)` for a non-empty separator: split at every
occurrence of `pat`, left to right, non-overlapping. -/
def pySplit (pat s : Str) : List Str :=
  if pat.isEmpty then [s] else pySplitF pat (s.length + 1) s

def replaceAllF (pat rep : Str) : Nat → Str → Str
  | 0, s => s
  | fuel + 1, s =>
    match splitFirst pat s with
    | none => s
    | some (b, a) => b ++ rep ++ replaceAllF pat rep fuel a

/-- Python `s.replace(pat, rep)`: every occurrence, left to right. -/
def replaceAll (pat rep s : Str) : Str :=
  if pat.isEmpty then s else replaceAllF pat rep (s.length + 1) s

/-- Python `s.strip()`. -/
def pyStrip (s : Str) : Str :=
  ((s.dropWhile Char.isWhitespace).reverse.dropWhile Char.isWhitespace).reverse

/-! ### Basic facts about `splitFirst`, `pySplit` and `replaceAll` -/

theorem splitFirst_eq {pat s b a : Str} (h : splitFirst pat s = some (b, a)) :
    s = b ++ pat ++ a := by
  induction s generalizing b a with
  | nil => simp [splitFirst] at h
  | cons c rest ih =>
    rw [splitFirst] at h
    by_cases hp : pat.isPrefixOf (c :: rest)
    · rw [if_pos hp] at h
      obtain ⟨t, ht⟩ := List.isPrefixOf_iff_prefix.mp hp
      injection h with h1
      injection h1 with hb ha
      subst hb
      subst ha
      have hdrop : (c :: rest).drop pat.length = t := by
        rw [← ht]; exact List.drop_left _ _
      rw [List.nil_append, hdrop, ht]
    · rw [if_neg hp, Option.map_eq_some'] at h
      obtain ⟨⟨b', a'⟩, hsf, heq⟩ := h
      injection heq with hb ha
      subst ha
      have := ih hsf
      subst this
      rw [← hb]
      simp

theorem splitFirst_none {pat s : Str} (hpat : pat ≠ []) (h : splitFirst pat s = none) :
    ¬ pat <:+: s := by
  induction s with
  | nil => simpa [List.infix_nil] using hpat
  | cons c rest ih =>
    rw [splitFirst] at h
    by_cases hp : pat.isPrefixOf (c :: rest)
    · rw [if_pos hp] at h; exact absurd h (by simp)
    · rw [if_neg hp, Option.map_eq_none'] at h
      intro hinf
      rcases List.infix_cons_iff.mp hinf with hpre | hinf'
      · exact hp (List.isPrefixOf_iff_prefix.mpr hpre)
      · exact ih h hinf'

/-- The text before the first occurrence contains no further occurrence. -/
theorem splitFirst_before {pat s b a : Str} (hpat : pat ≠ [])
    (h : splitFirst pat s = some (b, a)) : ¬ pat <:+: b := by
  induction s generalizing b a with
  | nil => simp [splitFirst] at h
  | cons c rest ih =>
    rw [splitFirst] at h
    by_cases hp : pat.isPrefixOf (c :: rest)
    · rw [if_pos hp] at h
      injection h with h1
      injection h1 with hb _
      subst hb
      simpa [List.infix_nil] using hpat
    · rw [if_neg hp, Option.map_eq_some'] at h
      obtain ⟨⟨b', a'⟩, hsf, heq⟩ := h
      injection heq with hb ha
      subst hb
      intro hinf
      rcases List.infix_cons_iff.mp hinf with hpre | hinf'
      · have hb' : b' <+: rest := ⟨pat ++ a', by rw [← List.append_assoc, ← splitFirst_eq hsf]⟩
        have : pat <+: c :: rest := hpre.trans (List.cons_prefix_cons.mpr ⟨rfl, hb'⟩)
        exact hp (List.isPrefixOf_iff_prefix.mpr this)
      · exact ih hsf hinf'

theorem splitFirst_length {pat s b a : Str} (hpat : pat ≠ [])
    (h : splitFirst pat s = some (b, a)) : a.length < s.length := by
  have := splitFirst_eq h
  subst this
  have : 0 < pat.length := List.length_pos.mpr hpat
  simp only [List.length_append]
  omega

/-- Fuel irrelevance for `pySplitF`: any fuel above the string length works. -/
theorem pySplitF_fuel {pat : Str} (hpat : pat ≠ []) :
    ∀ (f₁ f₂ : Nat) (s : Str), s.length < f₁ → s.length < f₂ →
      pySplitF pat f₁ s = pySplitF pat f₂ s := by
  intro f₁
  induction f₁ with
  | zero => intro f₂ s h₁ _; omega
  | succ f ih =>
    intro f₂ s h₁ h₂
    cases f₂ with
    | zero => omega
    | succ f' =>
      cases hsf : splitFirst pat s with
      | none => simp only [pySplitF, hsf]
      | some p =>
        obtain ⟨b, a⟩ := p
        have hlen := splitFirst_length hpat hsf
        simp only [pySplitF, hsf]
        rw [ih f' a (by omega) (by omega)]

theorem pySplit_cons {pat s b a : Str} (hpat : pat ≠ [])
    (h : splitFirst pat s = some (b, a)) :
    pySplit pat s = b :: pySplit pat a := by
  have hne : ¬ pat.isEmpty := by simpa [List.isEmpty_iff] using hpat
  rw [pySplit, pySplit, if_neg hne, if_neg hne]
  have hlen := splitFirst_length hpat h
  have e2 : pySplitF pat (a.length + 1) a = pySplitF pat s.length a :=
    pySplitF_fuel hpat _ _ a (by omega) (by omega)
  rw [e2]
  simp only [pySplitF, h]

theorem pySplit_single {pat s : Str} (h : splitFirst pat s = none) :
    pySplit pat s = [s] := by
  by_cases hpat : pat.isEmpty
  · rw [pySplit, if_pos hpat]
  · rw [pySplit, if_neg hpat, pySplitF, h]

theorem pySplit_ne_nil (pat s : Str) : pySplit pat s ≠ [] := by
  by_cases hpat : pat = []
  · subst hpat; simp [pySplit]
  · cases hsf : splitFirst pat s with
    | none => simp [pySplit_single hsf]
    | some p =>
      obtain ⟨b, a⟩ := p
      simp [pySplit_cons hpat hsf]

theorem intercalate_singleton (sep x : Str) : List.intercalate sep [x] = x := by
  simp [List.intercalate]

theorem intercalate_cons_of_ne_nil {sep x : Str} {xs : List Str} (h : xs ≠ []) :
    List.intercalate sep (x :: xs) = x ++ sep ++ List.intercalate sep xs := by
  cases xs with
  | nil => exact absurd rfl h
  | cons y ys => simp [List.intercalate, List.append_assoc]

/-- Splitting loses no text: joining the parts of `pySplit` with the
separator recovers the original string. -/
theorem pySplit_intercalate {pat : Str} (hpat : pat ≠ []) (s : Str) :
    List.intercalate pat (pySplit pat s) = s := by
  have H : ∀ (n : Nat) (s : Str), s.length ≤ n →
      List.intercalate pat (pySplit pat s) = s := by
    intro n
    induction n with
    | zero =>
      intro s hs
      have : s = [] := List.eq_nil_of_length_eq_zero (Nat.le_zero.mp hs)
      subst this
      have : splitFirst pat [] = none := rfl
      rw [pySplit_single this, intercalate_singleton]
    | succ n ih =>
      intro s hs
      cases hsf : splitFirst pat s with
      | none => rw [pySplit_single hsf, intercalate_singleton]
      | some p =>
        obtain ⟨b, a⟩ := p
        have hlen := splitFirst_length hpat hsf
        rw [pySplit_cons hpat hsf,
          intercalate_cons_of_ne_nil (pySplit_ne_nil pat a),
          ih a (by omega)]
        exact (splitFirst_eq hsf).symm
  exact H s.length s le_rfl

/-- Every part produced by `pySplit` is free of the separator: the split
really happens at every occurrence. -/
theorem pySplit_parts_not_infix {pat : Str} (hpat : pat ≠ []) (s : Str) :
    ∀ p ∈ pySplit pat s, ¬ pat <:+: p := by
  have H : ∀ (n : Nat) (s : Str), s.length ≤ n →
      ∀ p ∈ pySplit pat s, ¬ pat <:+: p := by
    intro n
    induction n with
    | zero =>
      intro s hs p hp
      have : s = [] := List.eq_nil_of_length_eq_zero (Nat.le_zero.mp hs)
      subst this
      have hnone : splitFirst pat [] = none := rfl
      rw [pySplit_single hnone, List.mem_singleton] at hp
      subst hp
      exact splitFirst_none hpat hnone
    | succ n ih =>
      intro s hs p hp
      cases hsf : splitFirst pat s with
      | none =>
        rw [pySplit_single hsf, List.mem_singleton] at hp
        subst hp
        exact splitFirst_none hpat hsf
      | some q =>
        obtain ⟨b, a⟩ := q
        have hlen := splitFirst_length hpat hsf
        rw [pySplit_cons hpat hsf, List.mem_cons] at hp
        rcases hp with hp | hp
        · subst hp; exact splitFirst_before hpat hsf
        · exact ih a (by omega) p hp
  exact H s.length s le_rfl

/-- Characters of any part of `pySplit` come from the original string. -/
theorem pySplit_parts_subset {pat s p : Str} (hp : p ∈ pySplit pat s) :
    ∀ {c : Char}, c ∈ p → c ∈ s := by
  have H : ∀ (n : Nat) (s : Str), s.length ≤ n →
      ∀ p ∈ pySplit pat s, ∀ c ∈ p, c ∈ s := by
    intro n
    induction n with
    | zero =>
      intro s hs p hp c hc
      have : s = [] := List.eq_nil_of_length_eq_zero (Nat.le_zero.mp hs)
      subst this
      have hnone : splitFirst pat [] = none := rfl
      rw [pySplit_single hnone, List.mem_singleton] at hp
      subst hp
      exact hc
    | succ n ih =>
      intro s hs p hp c hc
      by_cases hpat : pat = []
      · subst hpat
        simp only [pySplit, List.isEmpty_nil, if_pos] at hp
        rw [List.mem_singleton] at hp
        subst hp
        exact hc
      cases hsf : splitFirst pat s with
      | none =>
        rw [pySplit_single hsf, List.mem_singleton] at hp
        subst hp
        exact hc
      | some q =>
        obtain ⟨b, a⟩ := q
        have hlen := splitFirst_length hpat hsf
        have hseq := splitFirst_eq hsf
        rw [pySplit_cons hpat hsf, List.mem_cons] at hp
        rcases hp with hp | hp
        · subst hp
          rw [hseq]
          simp [hc]
        · have := ih a (by omega) p hp c hc
          rw [hseq]
          simp [this]
  intro c hc
  exact H s.length s le_rfl p hp c hc

theorem mem_replaceAllF {pat rep : Str} {c : Char} :
    ∀ (fuel : Nat) (s : Str), c ∈ replaceAllF pat rep fuel s → c ∈ s ∨ c ∈ rep := by
  intro fuel
  induction fuel with
  | zero => intro s hc; exact Or.inl hc
  | succ f ih =>
    intro s hc
    cases hsf : splitFirst pat s with
    | none =>
      rw [replaceAllF, hsf] at hc
      exact Or.inl hc
    | some q =>
      obtain ⟨b, a⟩ := q
      have hseq := splitFirst_eq hsf
      simp only [replaceAllF, hsf] at hc
      rw [List.mem_append, List.mem_append] at hc
      rcases hc with (hc | hc) | hc
      · exact Or.inl (by rw [hseq]; simp [hc])
      · exact Or.inr hc
      · rcases ih a hc with h | h
        · exact Or.inl (by rw [hseq]; simp [h])
        · exact Or.inr h

/-- Characters of `replaceAll pat rep s` come from `s` or from `rep`. -/
theorem mem_replaceAll {pat rep s : Str} {c : Char}
    (hc : c ∈ replaceAll pat rep s) : c ∈ s ∨ c ∈ rep := by
  by_cases hpat : pat.isEmpty
  · rw [replaceAll, if_pos hpat] at hc; exact Or.inl hc
  · rw [replaceAll, if_neg hpat] at hc
    exact mem_replaceAllF _ s hc

theorem mem_of_infix_singleton {d : Char} {s : Str} (h : [d] <:+: s) : d ∈ s :=
  h.sublist.mem (List.mem_singleton_self d)

theorem infix_singleton_of_mem {d : Char} {s : Str} (h : d ∈ s) : [d] <:+: s := by
  obtain ⟨l, r, hs⟩ := List.append_of_mem h
  exact ⟨l, r, by rw [hs]; simp⟩

/-- Replacing every occurrence of a single character removes it entirely
(provided the replacement text does not contain it). -/
theorem not_mem_replaceAll_single {d : Char} {rep : Str} (hrep : d ∉ rep)
    (s : Str) : d ∉ replaceAll [d] rep s := by
  have hpat : ([d] : Str) ≠ [] := by simp
  have H : ∀ (n : Nat) (s : Str), s.length ≤ n → ∀ fuel, s.length < fuel →
      d ∉ replaceAllF [d] rep fuel s := by
    intro n
    induction n with
    | zero =>
      intro s hs fuel hf
      have : s = [] := List.eq_nil_of_length_eq_zero (Nat.le_zero.mp hs)
      subst this
      cases fuel with
      | zero => omega
      | succ f =>
        have hnone : splitFirst [d] ([] : Str) = none := rfl
        rw [replaceAllF, hnone]
        simp
    | succ n ih =>
      intro s hs fuel hf
      cases fuel with
      | zero => omega
      | succ f =>
        cases hsf : splitFirst [d] s with
        | none =>
          rw [replaceAllF, hsf]
          intro hd
          exact splitFirst_none hpat hsf (infix_singleton_of_mem hd)
        | some q =>
          obtain ⟨b, a⟩ := q
          have hlen := splitFirst_length hpat hsf
          simp only [replaceAllF, hsf]
          intro hd
          rw [List.mem_append, List.mem_append] at hd
          rcases hd with (hd | hd) | hd
          · exact splitFirst_before hpat hsf (infix_singleton_of_mem hd)
          · exact hrep hd
          · exact ih a (by omega) f (by omega) hd
  intro hd
  rw [replaceAll] at hd
  simp only [List.isEmpty_cons, if_neg Bool.false_ne_true] at hd
  exact H s.length s le_rfl (s.length + 1) (by omega) hd

theorem mem_pyStrip {s : Str} {c : Char} (h : c ∈ pyStrip s) : c ∈ s := by
  rw [pyStrip, List.mem_reverse] at h
  have h1 := (List.dropWhile_sublist _).mem h
  rw [List.mem_reverse] at h1
  exact (List.dropWhile_sublist _).mem h1

theorem containsSeq_false_split {pat s : Str} (h : containsSeq pat s = false) :
    pySplit pat s = [s] :=
  pySplit_single (Option.not_isSome_iff_eq_none.mp (by simp [containsSeq] at h; simp [h]))

/-! ### String constants used by the notebook -/

def sIn : Str := "in".data
def sComma : Str := ",".data
def sOpenP : Str := "(".data
def sCloseP : Str := ")".data
def sSlash : Str := "/".data
def sSpace : Str := " ".data
def sDash : Str := "-".data
def sDot : Str := ".".data
def sCm : Str := "cm".data
def sKg : Str := "kg".data
def sCmUnit : Str := " cm".data
def sKgUnit : Str := " kg".data
def sBullet : Str := "•".data
def sUnknown : Str := "Unknown".data

/-- Cell 40: month names and their two-digit codes surrounded by hyphens. -/
def monthTable : List (Str × Str) :=
  [("January".data, "-01-".data), ("February".data, "-02-".data),
   ("March".data, "-03-".data), ("April".data, "-04-".data),
   ("May".data, "-05-".data), ("June".data, "-06-".data),
   ("July".data, "-07-".data), ("August".data, "-08-".data),
   ("September".data, "-09-".data), ("October".data, "-10-".data),
   ("November".data, "-11-".data), ("December".data, "-12-".data)]

/-- Cell 40: `Series.replace({...}, regex=True)` — every month-name
occurrence is replaced by its numeric code. -/
def monthReplace (s : Str) : Str :=
  monthTable.foldl (fun t p => replaceAll p.1 p.2 t) s

/-! ### Scalar parsers -/

structure Date where
  year : Nat
  month : Nat
  day : Nat
deriving DecidableEq

def isLeap (y : Nat) : Bool := (y % 4 == 0 && y % 100 != 0) || y % 400 == 0

def daysInMonth (y m : Nat) : Nat :=
  if m = 2 then (if isLeap y then 29 else 28)
  else if m = 4 ∨ m = 6 ∨ m = 9 ∨ m = 11 then 30 else 31

def digitsToNat (s : Str) : Option Nat :=
  if s ≠ [] ∧ s.all Char.isDigit then
    some (s.foldl (fun n c => n * 10 + (c.toNat - 48)) 0)
  else none

/-- Cell 44's `pd.to_datetime(..., format="%d-%m-%Y", errors="coerce")` on
one value: strict day-month-year parse against the fixed pattern; invalid or
out-of-`Timestamp`-range dates give `none` (pandas `NaT`).  The `Timestamp`
bounds (1677-09-21 .. 2262-04-11) are approximated by whole years. -/
def parseDate (s : Str) : Option Date :=
  match pySplit sDash s with
  | [d, m, y] =>
    match digitsToNat d, digitsToNat m, digitsToNat y with
    | some dn, some mn, some yn =>
      if 1 ≤ mn ∧ mn ≤ 12 ∧ 1 ≤ dn ∧ dn ≤ daysInMonth yn mn ∧
          1678 ≤ yn ∧ yn ≤ 2261
      then some ⟨yn, mn, dn⟩ else none
    | _, _, _ => none
  | _ => none

/-- Cell 73's `pd.to_numeric(..., errors="coerce")` on one string value: an
optionally signed decimal numeral (the dataset's unit fragments never use
scientific notation, which is not modelled); anything else coerces to `none`
(NaN). -/
def parseRat (s : Str) : Option Rat :=
  let t := pyStrip s
  let p : Bool × Str :=
    match t with
    | '-' :: r => (true, r)
    | '+' :: r => (false, r)
    | _ => (false, t)
  let signed : Rat → Rat := fun q => if p.1 then -q else q
  match pySplit sDot p.2 with
  | [ip] => (digitsToNat ip).map fun n => signed n
  | [ip, fp] =>
    if (ip ++ fp) ≠ [] ∧ (ip ++ fp).all Char.isDigit then
      match digitsToNat (ip ++ fp) with
      | some n => some (signed ((n : Rat) / ((10 : Rat) ^ fp.length)))
      | none => none
    else none
  | _ => none

/-! ### pandas column primitives -/

/-- Cell 41's `Series.replace(" ", "", regex=False)` acts on whole cell
values, not substrings: only a cell that is exactly one space is emptied. -/
def seriesReplaceSpace (v : Option Str) : Option Str :=
  if v = some sSpace then some [] else v

/-- Column `j` of `Series.str.split(pat, expand=True)` at one row: part `j`
of the split; `none` when the row has fewer parts (pandas pads with None) or
the cell itself is NaN. -/
def cellOf (pat : Str) (v : Option Str) (j : Nat) : Option Str :=
  v.bind fun s => (pySplit pat s).get? j

/-- Number of columns `Series.str.split(pat, expand=True)` produces: the
maximum part count over the rows (a NaN row counts one). -/
def numColsOf (pat : Str) (col : List (Option Str)) : Nat :=
  col.foldl
    (fun m v => max m (match v with | none => 1 | some s => (pySplit pat s).length)) 1

/-- A pandas/sklearn exception surfaced by the notebook's code. -/
inductive PdErr where
  /-- a split column that was never produced is selected -/
  | keyError
  /-- an all-NaN numeric column is imputed and written back -/
  | emptyColumn
deriving DecidableEq

/-! ### The table and the pipeline stages, in notebook cell order -/

/-- A raw `bios.csv` row. -/
structure RawRow where
  athlete_id : Rat
  full_name : Option Str
  used_name : Option Str
  sex : Option Str
  born : Option Str
  died : Option Str
  noc : Option Str
  measurements : Option Str
  roles : Option Str
  affiliations : Option Str
  nick_petnames : Option Str
  titles : Option Str
  other_names : Option Str
  nationality : Option Str
  original_name : Option Str
  name_order : Option Str
deriving DecidableEq

def dedupAux [DecidableEq α] (seen : List α) : List α → List α
  | [] => []
  | x :: xs => if x ∈ seen then dedupAux seen xs else x :: dedupAux (x :: seen) xs

/-- Cell 14: `df.drop_duplicates()` — of rows equal across every field only
the first occurrence is kept. -/
def dropDuplicates [DecidableEq α] (l : List α) : List α := dedupAux [] l

/-- Cells 15/17: the dropped and the kept-and-reordered columns. -/
structure Row1 where
  athlete_id : Rat
  full_name : Option Str
  used_name : Option Str
  sex : Option Str
  born : Option Str
  died : Option Str
  noc : Option Str
  measurements : Option Str
  roles : Option Str
  affiliations : Option Str
deriving DecidableEq

def toRow1 (r : RawRow) : Row1 :=
  ⟨r.athlete_id, r.full_name, r.used_name, r.sex, r.born, r.died, r.noc,
   r.measurements, r.roles, r.affiliations⟩

structure Row2 where
  athlete_id : Rat
  name : Option Str
  sex : Option Str
  born : Option Str
  died : Option Str
  noc : Option Str
  measurements : Option Str
  roles : Option Str
  affiliations : Option Str
deriving DecidableEq

/-- Cells 26/28: insert `name` = `Used name` with "•" replaced by a space,
then drop `Full name` and `Used name`. -/
def toRow2 (r : Row1) : Row2 :=
  ⟨r.athlete_id, r.used_name.map (replaceAll sBullet sSpace), r.sex, r.born,
   r.died, r.noc, r.measurements, r.roles, r.affiliations⟩

/-- Cells 39-41, column 0 of the "in" split: month replacement (cell 40),
then `str.strip` and the value-level space replacement (cell 41). -/
def rawDateOf (born : Option Str) : Option Str :=
  seriesReplaceSpace ((cellOf sIn born 0).map fun s => pyStrip (monthReplace s))

/-- Cell 44: remove inner spaces, then parse with format `%d-%m-%Y`. -/
def dateOf (born : Option Str) : Option Date :=
  ((rawDateOf born).map (replaceAll sSpace [])).bind parseDate

/-- Cells 39/41/46: the birth_location fragment, stripped, then with every
space character removed (cell 46's `str.replace(" ", "", regex=False)`). -/
def locOf (born : Option Str) : Option Str :=
  (seriesReplaceSpace ((cellOf sIn born 1).map pyStrip)).map (replaceAll sSpace [])

def cityOf (born : Option Str) : Option Str := cellOf sComma (locOf born) 0

def regionCountryOf (born : Option Str) : Option Str := cellOf sComma (locOf born) 1

def regionOf (born : Option Str) : Option Str :=
  cellOf sOpenP (regionCountryOf born) 0

/-- Cells 52/55: the Country fragment with the residual ")" removed. -/
def countryOf (born : Option Str) : Option Str :=
  (cellOf sOpenP (regionCountryOf born) 1).map (replaceAll sCloseP [])

structure Row3 where
  athlete_id : Rat
  name : Option Str
  sex : Option Str
  birth_date : Option Date
  city : Option Str
  region : Option Str
  country : Option Str
  noc : Option Str
  measurements : Option Str
  roles : Option Str
  affiliations : Option Str
deriving DecidableEq

def bornRowFn (r : Row2) : Row3 :=
  ⟨r.athlete_id, r.name, r.sex, dateOf r.born, cityOf r.born, regionOf r.born,
   countryOf r.born, r.noc, r.measurements, r.roles, r.affiliations⟩

/-- Cells 38-57.  `expand=True` produces one column when no row contains the
delimiter, and selecting column 1 then raises `KeyError`: at cell 41 for the
"in" split, at cell 49 for the comma split, at cell 53 for the parenthesis
split.  Otherwise every operation is a per-row map, composed in
`bornRowFn`; `Born`, `birth_location`, `Region_country` and `Died` are
dropped at cell 57. -/
def bornStage (rows : List Row2) : Except PdErr (List Row3) :=
  if numColsOf sIn (rows.map (·.born)) ≤ 1 then .error .keyError
  else if numColsOf sComma (rows.map fun r => locOf r.born) ≤ 1 then .error .keyError
  else if numColsOf sOpenP (rows.map fun r => regionCountryOf r.born) ≤ 1 then
    .error .keyError
  else .ok (rows.map bornRowFn)

/-- Cell 64: `df.dropna(subset=["NOC"])`. -/
def nocDrop (rows : List Row3) : List Row3 := rows.filter fun r => r.noc.isSome

/-- The per-row branch of cell 71 (fragments already stripped): a single
fragment dispatches on its unit marker, two fragments are assigned
positionally with the unit suffix of the expected slot removed. -/
def measAssign (r0 r1 : Option Str) : Option Str × Option Str :=
  match r1 with
  | none =>
    match r0 with
    | none => (none, none)
    | some f =>
      if containsSeq sCm f then (some (replaceAll sCmUnit [] f), none)
      else if containsSeq sKg f then (none, some (replaceAll sKgUnit [] f))
      else (none, none)
  | some w => (r0.map (replaceAll sCmUnit []), some (replaceAll sKgUnit [] w))

/-- Cells 70-73 on one row: split on "/", strip the fragments, dispatch,
then `pd.to_numeric(errors="coerce")` both results. -/
def measPair (v : Option Str) : Option Rat × Option Rat :=
  let p := measAssign ((cellOf sSlash v 0).map pyStrip) ((cellOf sSlash v 1).map pyStrip)
  (p.1.bind parseRat, p.2.bind parseRat)

/-- The final schema (cell 76 ordering); Measurements is dropped (cell 75). -/
structure Row4 where
  athlete_id : Rat
  name : Option Str
  sex : Option Str
  birth_date : Option Date
  city : Option Str
  region : Option Str
  country : Option Str
  noc : Option Str
  height_cm : Option Rat
  weight_kg : Option Rat
  roles : Option Str
  affiliations : Option Str
deriving DecidableEq

def measRowFn (r : Row3) : Row4 :=
  ⟨r.athlete_id, r.name, r.sex, r.birth_date, r.city, r.region, r.country,
   r.noc, (measPair r.measurements).1, (measPair r.measurements).2,
   r.roles, r.affiliations⟩

/-- Cells 69-76: the row loop reads `row[1]` for every row, so on a
non-empty table it raises `KeyError` unless some Measurements value
contains "/" (on an empty table the loop body never runs). -/
def measStage (rows : List Row3) : Except PdErr (List Row4) :=
  if rows ≠ [] ∧ numColsOf sSlash (rows.map (·.measurements)) ≤ 1 then
    .error .keyError
  else .ok (rows.map measRowFn)

/-- Cell 76: the exact ordered final column list of the output table. -/
def finalColumns : List String :=
  ["athlete_id", "name", "Sex", "birth_date", "City", "Region", "Country",
   "NOC", "height_cm", "weight_kg", "Roles", "Affiliations"]

def orUnknown (v : Option Str) : Option Str :=
  match v with
  | none => some sUnknown
  | some s => some s

/-- Cell 81: City, Region, Country and Affiliations nulls become the
literal "Unknown". -/
def fillRowFn (r : Row4) : Row4 :=
  { r with city := orUnknown r.city, region := orUnknown r.region,
           country := orUnknown r.country, affiliations := orUnknown r.affiliations }

/-- One step of the mode computation: keep the more frequent candidate, and
between equally frequent candidates the smaller one. -/
def mfStep (l : List Rat) (acc : Option Rat) (x : Rat) : Option Rat :=
  match acc with
  | none => some x
  | some b =>
    if l.count x > l.count b ∨ (l.count x = l.count b ∧ x < b) then some x
    else some b

/-- The statistic of `SimpleImputer(strategy="most_frequent")` (scipy mode):
a most frequent value, and of equally frequent values the smallest. -/
def mostFrequent (l : List Rat) : Option Rat := l.foldl (mfStep l) none

/-- Cell 84 on one numeric column: every null becomes the column's most
frequent non-null value.  An entirely null column cannot be written back
(sklearn drops it and the frame assignment raises), hence the error case. -/
def imputeCol (col : List (Option Rat)) : Except PdErr (List (Option Rat)) :=
  if col.all (·.isSome) then .ok col
  else
    match mostFrequent (col.filterMap id) with
    | none => .error .emptyColumn
    | some m => .ok (col.map fun v => some (v.getD m))

def setHW : List Row4 → List (Option Rat) → List (Option Rat) → List Row4
  | r :: rs, h :: hs, w :: ws =>
    { r with height_cm := h, weight_kg := w } :: setHW rs hs ws
  | [], _, _ => []
  | r :: rs, [], _ => r :: rs
  | r :: rs, _ :: _, [] => r :: rs

/-- Cell 84: the loop over `select_dtypes(include="number")` visits
athlete_id, height_cm and weight_kg; on athlete_id (non-null by
construction) the imputer is the identity, so only the measurement columns
change. -/
def imputeStage (rows : List Row4) : Except PdErr (List Row4) := do
  let hs ← imputeCol (rows.map (·.height_cm))
  let ws ← imputeCol (rows.map (·.weight_kg))
  .ok (setHW rows hs ws)

def sentinelDate : Date := ⟨1975, 1, 1⟩

/-- Cell 85: null birth_date becomes the fixed sentinel 1975-01-01. -/
def sentinelRowFn (r : Row4) : Row4 :=
  { r with birth_date := some (r.birth_date.getD sentinelDate) }

/-- numpy rounding: half to even. -/
def roundHalfEven (q : Rat) : Int :=
  let f := q.floor
  let r := q - (f : Rat)
  if r < 1/2 then f
  else if 1/2 < r then f + 1
  else if f % 2 = 0 then f else f + 1

/-- Cell 86: round to one decimal place. -/
def round1 (q : Rat) : Rat := (roundHalfEven (q * 10) : Rat) / 10

def roundRowFn (r : Row4) : Row4 :=
  { r with height_cm := r.height_cm.map round1, weight_kg := r.weight_kg.map round1 }

/-- The working table after dedup, column pruning and the name insertion
(cells 14-28). -/
def row2sOf (rows : List RawRow) : List Row2 :=
  ((dropDuplicates rows).map toRow1).map toRow2

/-- The working table after the Born parsing (cells 38-57), when it did not
raise. -/
def row3sOf (rows : List RawRow) : List Row3 := (row2sOf rows).map bornRowFn

/-- The whole cleaning pipeline of the notebook, in cell order. -/
def cleanPipeline (rows : List RawRow) : Except PdErr (List Row4) :=
  match bornStage (row2sOf rows) with
  | .error e => .error e
  | .ok r3 =>
    match measStage (nocDrop r3) with
    | .error e => .error e
    | .ok r4 =>
      match imputeStage (r4.map fillRowFn) with
      | .error e => .error e
      | .ok r6 => .ok ((r6.map sentinelRowFn).map roundRowFn)

/-- The first output row of the pipeline run on a one-row table. -/
def runRow (r : RawRow) : Option Row4 :=
  (cleanPipeline [r]).toOption.bind List.head?

/-- The rows an `Except` result carries (empty on an exception). -/
def okRows (e : Except PdErr (List Row4)) : List Row4 := e.toOption.getD []

instance {ε α : Type} [DecidableEq ε] [DecidableEq α] : DecidableEq (Except ε α) :=
  fun x y =>
    match x, y with
    | .error a, .error b =>
      if h : a = b then isTrue (by rw [h])
      else isFalse fun hh => h (Except.error.inj hh)
    | .ok a, .ok b =>
      if h : a = b then isTrue (by rw [h])
      else isFalse fun hh => h (Except.ok.inj hh)
    | .error _, .ok _ => isFalse fun hh => Except.noConfusion hh
    | .ok _, .error _ => isFalse fun hh => Except.noConfusion hh

/-! ### Concrete test rows -/

/-- A raw row with the given used name, Born, NOC, Measurements and
Affiliations values (the remaining free-text fields are fixed). -/
def mkRaw (idv : Rat) (un bo no me af : Option Str) : RawRow :=
  ⟨idv, some ("X Y".data), un, some ("Male".data), bo, none, no, me,
   some ("Competed".data), af, none, none, none, none, none, none⟩

def rowParis : RawRow :=
  mkRaw 1 (some ("Jean•Pierre".data))
    (some ("12 January 1980 in Paris, France (Île-de-France)".data))
    (some ("FRA".data)) (some ("178 cm / 75 kg".data)) none

/-- A row whose Born value does not contain the token "in". -/
def rowNoIn : RawRow :=
  mkRaw 2 (some ("A".data)) (some ("1980".data)) (some ("FRA".data))
    (some ("178 cm / 75 kg".data)) none

/-- A row whose Measurements value does not contain "/" (its Born value
parses fine, so the failure is pinned on the Measurements stage). -/
def rowNoSlash : RawRow :=
  mkRaw 3 (some ("B".data)) (some ("1 May 1980 in X, Y (Z)".data))
    (some ("FRA".data)) (some ("60 kg".data)) none

def rowNewYork : RawRow :=
  mkRaw 4 (some ("C".data)) (some ("1 July 1990 in New York, USA (NY)".data))
    (some ("USA".data)) (some ("170 cm / 60 kg".data)) none

/-! ### Deduplication (cell 14) -/

theorem dedupAux_sublist [DecidableEq α] (l : List α) :
    ∀ seen : List α, List.Sublist (dedupAux seen l) l := by
  induction l with
  | nil => intro seen; simp [dedupAux]
  | cons x xs ih =>
    intro seen
    rw [dedupAux]
    by_cases hx : x ∈ seen
    · rw [if_pos hx]; exact (ih seen).cons x
    · rw [if_neg hx]; exact (ih (x :: seen)).cons₂ x

theorem dedupAux_congr_seen [DecidableEq α] (l : List α) :
    ∀ seen₁ seen₂ : List α, (∀ y, y ∈ seen₁ ↔ y ∈ seen₂) →
      dedupAux seen₁ l = dedupAux seen₂ l := by
  induction l with
  | nil => intro _ _ _; rfl
  | cons x xs ih =>
    intro seen₁ seen₂ hiff
    rw [dedupAux, dedupAux]
    by_cases hx : x ∈ seen₁
    · rw [if_pos hx, if_pos ((hiff x).mp hx)]
      exact ih seen₁ seen₂ hiff
    · rw [if_neg hx, if_neg (fun h => hx ((hiff x).mpr h))]
      congr 1
      refine ih (x :: seen₁) (x :: seen₂) fun y => ?_
      simp only [List.mem_cons]
      exact or_congr Iff.rfl (hiff y)

theorem dedupAux_cons_seen [DecidableEq α] (l : List α) :
    ∀ (seen : List α) (x : α),
      dedupAux (x :: seen) l = dedupAux seen (l.filter fun y => decide (y ≠ x)) := by
  induction l with
  | nil => intro _ _; rfl
  | cons z zs ih =>
    intro seen x
    rw [dedupAux, List.filter_cons]
    by_cases hzx : z = x
    · subst hzx
      rw [if_pos (List.mem_cons_self z seen)]
      simp only [show decide (z ≠ z) = false by simp, Bool.false_eq_true, if_neg,
        reduceIte]
      exact ih seen z
    · simp only [show decide (z ≠ x) = true by simp [hzx], if_pos, reduceIte]
      rw [dedupAux]
      by_cases hz : z ∈ seen
      · rw [if_pos (List.mem_cons_of_mem x hz), if_pos hz]
        exact ih seen x
      · have hz' : z ∉ x :: seen := by
          intro h
          rcases List.mem_cons.mp h with h | h
          · exact hzx h
          · exact hz h
        rw [if_neg hz', if_neg hz]
        congr 1
        rw [dedupAux_congr_seen zs (z :: x :: seen) (x :: z :: seen)
          (fun y => by simp [List.mem_cons]; tauto)]
        exact ih (z :: seen) x

theorem mem_dedupAux [DecidableEq α] (l : List α) :
    ∀ (seen : List α) (x : α), x ∈ dedupAux seen l ↔ x ∈ l ∧ x ∉ seen := by
  induction l with
  | nil => intro seen x; simp [dedupAux]
  | cons y ys ih =>
    intro seen x
    rw [dedupAux]
    by_cases hy : y ∈ seen
    · rw [if_pos hy, ih seen x]
      constructor
      · rintro ⟨h1, h2⟩; exact ⟨List.mem_cons_of_mem y h1, h2⟩
      · rintro ⟨h1, h2⟩
        rcases List.mem_cons.mp h1 with rfl | h1
        · exact absurd hy h2
        · exact ⟨h1, h2⟩
    · rw [if_neg hy, List.mem_cons, ih (y :: seen) x]
      constructor
      · rintro (rfl | ⟨h1, h2⟩)
        · exact ⟨List.mem_cons_self _ _, hy⟩
        · exact ⟨List.mem_cons_of_mem y h1,
            fun hs => h2 (List.mem_cons_of_mem y hs)⟩
      · rintro ⟨h1, h2⟩
        rcases List.mem_cons.mp h1 with rfl | h1
        · exact Or.inl rfl
        · by_cases hxy : x = y
          · exact Or.inl hxy
          · exact Or.inr ⟨h1, fun hs => by
              rcases List.mem_cons.mp hs with h | h
              · exact hxy h
              · exact h2 h⟩

theorem dedupAux_not_mem_of_seen [DecidableEq α] (l : List α) {seen : List α}
    {x : α} (hx : x ∈ seen) : x ∉ dedupAux seen l := by
  intro h
  exact ((mem_dedupAux l seen x).mp h).2 hx

theorem dedupAux_nodup [DecidableEq α] (l : List α) :
    ∀ seen : List α, (dedupAux seen l).Nodup := by
  induction l with
  | nil => intro seen; simp [dedupAux]
  | cons x xs ih =>
    intro seen
    rw [dedupAux]
    by_cases hx : x ∈ seen
    · rw [if_pos hx]; exact ih seen
    · rw [if_neg hx]
      exact List.Nodup.cons
        (dedupAux_not_mem_of_seen xs (List.mem_cons_self x seen)) (ih (x :: seen))

theorem dedupAux_eq_self [DecidableEq α] (l : List α) :
    ∀ seen : List α, l.Nodup → (∀ x ∈ l, x ∉ seen) → dedupAux seen l = l := by
  induction l with
  | nil => intro seen _ _; rfl
  | cons x xs ih =>
    intro seen hnd hdisj
    rw [dedupAux, if_neg (hdisj x (List.mem_cons_self x xs))]
    congr 1
    refine ih (x :: seen) (List.Nodup.of_cons hnd) ?_
    intro y hy hmem
    rcases List.mem_cons.mp hmem with rfl | h
    · exact (List.nodup_cons.mp hnd).1 hy
    · exact hdisj y (List.mem_cons_of_mem x hy) h

/-! ### Stage-level structure lemmas for the pipeline -/

theorem bornStage_ok {rows2 : List Row2} {o : List Row3}
    (h : bornStage rows2 = .ok o) : o = rows2.map bornRowFn := by
  rw [bornStage] at h
  split_ifs at h <;>
    first
    | exact (Except.ok.inj h).symm
    | exact Except.noConfusion h

theorem measStage_ok {rows3 : List Row3} {o : List Row4}
    (h : measStage rows3 = .ok o) : o = rows3.map measRowFn := by
  rw [measStage] at h
  split_ifs at h <;>
    first
    | exact (Except.ok.inj h).symm
    | exact Except.noConfusion h

theorem setHW_shape :
    ∀ (rows : List Row4) (hs ws : List (Option Rat)), ∀ r' ∈ setHW rows hs ws,
      ∃ r ∈ rows,
        r' = { r with height_cm := r'.height_cm, weight_kg := r'.weight_kg } := by
  intro rows
  induction rows with
  | nil =>
    intro hs ws r' hr'
    simp [setHW] at hr'
  | cons r rs ih =>
    intro hs ws r' hr'
    cases hs with
    | nil =>
      rw [setHW] at hr'
      exact ⟨r', hr', rfl⟩
    | cons h0 hs' =>
      cases ws with
      | nil =>
        rw [setHW] at hr'
        exact ⟨r', hr', rfl⟩
      | cons w0 ws' =>
        rw [setHW] at hr'
        rcases List.mem_cons.mp hr' with heq | hmem
        · subst heq
          exact ⟨r, List.mem_cons_self r rs, rfl⟩
        · obtain ⟨rq, hin, heq⟩ := ih hs' ws' r' hmem
          exact ⟨rq, List.mem_cons_of_mem r hin, heq⟩

theorem imputeStage_shape {rows o : List Row4} (h : imputeStage rows = .ok o) :
    ∀ r' ∈ o, ∃ r ∈ rows,
      r' = { r with height_cm := r'.height_cm, weight_kg := r'.weight_kg } := by
  rw [imputeStage] at h
  cases h1 : imputeCol (rows.map (·.height_cm)) with
  | error e => rw [h1] at h; exact Except.noConfusion h
  | ok hs =>
    rw [h1] at h
    cases h2 : imputeCol (rows.map (·.weight_kg)) with
    | error e => rw [h2] at h; exact Except.noConfusion h
    | ok ws =>
      rw [h2] at h
      have ho : o = setHW rows hs ws := (Except.ok.inj h).symm
      subst ho
      exact setHW_shape rows hs ws

/-- Where each output row comes from: a surviving Row3 whose string columns
went through the "Unknown" fill and whose birth_date went through the
sentinel fill; name, sex and NOC pass through unchanged. -/
theorem out_shape {rows : List RawRow} {out : List Row4}
    (h : cleanPipeline rows = .ok out) :
    ∀ r ∈ out, ∃ r3, r3 ∈ nocDrop (row3sOf rows) ∧
      r.name = r3.name ∧ r.sex = r3.sex ∧ r.noc = r3.noc ∧
      r.city = orUnknown r3.city ∧ r.region = orUnknown r3.region ∧
      r.country = orUnknown r3.country ∧
      r.affiliations = orUnknown r3.affiliations ∧
      r.birth_date = some (r3.birth_date.getD sentinelDate) := by
  intro r hr
  cases hb : bornStage (row2sOf rows) with
  | error e => simp only [cleanPipeline, hb] at h; exact Except.noConfusion h
  | ok r3l =>
    cases hm : measStage (nocDrop r3l) with
    | error e => simp only [cleanPipeline, hb, hm] at h; exact Except.noConfusion h
    | ok r4l =>
      cases hi : imputeStage (r4l.map fillRowFn) with
      | error e =>
        simp only [cleanPipeline, hb, hm, hi] at h
        exact Except.noConfusion h
      | ok r6l =>
        simp only [cleanPipeline, hb, hm, hi] at h
        have hout : out = (r6l.map sentinelRowFn).map roundRowFn :=
          (Except.ok.inj h).symm
        subst hout
        obtain ⟨r7, hr7, rfl⟩ := List.mem_map.mp hr
        obtain ⟨r6, hr6, rfl⟩ := List.mem_map.mp hr7
        obtain ⟨r5, hr5, hshape⟩ := imputeStage_shape hi r6 hr6
        obtain ⟨r4, hr4, rfl⟩ := List.mem_map.mp hr5
        have hr4l : r4l = (nocDrop r3l).map measRowFn := measStage_ok hm
        rw [hr4l] at hr4
        obtain ⟨r3, hr3, rfl⟩ := List.mem_map.mp hr4
        have hmap : r3l = row3sOf rows := bornStage_ok hb
        rw [hmap] at hr3
        refine ⟨r3, hr3, ?_, ?_, ?_, ?_, ?_, ?_, ?_, ?_⟩ <;>
          · simp only [roundRowFn, sentinelRowFn]
            rw [hshape]
            rfl

/-! ### Small bridging lemmas -/

theorem contains_false_of_not_mem {c : Char} {s : Str} (h : c ∉ s) :
    s.contains c = false := by
  rw [← Bool.not_eq_true]
  intro hb
  exact h (List.elem_iff.mp hb)

theorem cellOf_some {pat : Str} {v : Option Str} {j : Nat} {p : Str}
    (h : cellOf pat v j = some p) : ∃ s0, v = some s0 ∧ p ∈ pySplit pat s0 := by
  cases v with
  | none => simp [cellOf] at h
  | some s0 =>
    have hg : (pySplit pat s0).get? j = some p := by simpa [cellOf] using h
    exact ⟨s0, rfl, List.get?_mem hg⟩

theorem orUnknown_getD (v : Option Str) : orUnknown v = some (v.getD sUnknown) := by
  cases v <;> rfl

theorem not_space_locOf {born : Option Str} {s0 : Str}
    (h : locOf born = some s0) : ' ' ∉ s0 := by
  rw [locOf, Option.map_eq_some'] at h
  obtain ⟨s1, _, hs⟩ := h
  subst hs
  have hsp : sSpace = [' '] := rfl
  rw [hsp]
  exact not_mem_replaceAll_single (by simp) s1

theorem not_space_cityOf {born : Option Str} {c : Str}
    (h : cityOf born = some c) : ' ' ∉ c := by
  obtain ⟨s0, hloc, hmem⟩ := cellOf_some h
  intro hsp
  exact not_space_locOf hloc (pySplit_parts_subset hmem hsp)

theorem not_space_regionOf {born : Option Str} {c : Str}
    (h : regionOf born = some c) : ' ' ∉ c := by
  obtain ⟨rc, hrc, hmem⟩ := cellOf_some h
  obtain ⟨s0, hloc, hmem0⟩ := cellOf_some hrc
  intro hsp
  exact not_space_locOf hloc (pySplit_parts_subset hmem0 (pySplit_parts_subset hmem hsp))

theorem not_space_countryOf {born : Option Str} {c : Str}
    (h : countryOf born = some c) : ' ' ∉ c := by
  rw [countryOf, Option.map_eq_some'] at h
  obtain ⟨c0, hcell, hc⟩ := h
  subst hc
  obtain ⟨rc, hrc, hmem⟩ := cellOf_some hcell
  obtain ⟨s0, hloc, hmem0⟩ := cellOf_some hrc
  intro hsp
  rcases mem_replaceAll hsp with hin | hin
  · exact not_space_locOf hloc
      (pySplit_parts_subset hmem0 (pySplit_parts_subset hmem hin))
  · simp at hin

/-! ### The claims -/

/-- Claim C6: deduplication removes exactly the rows that are equal to an
earlier row across every field — it keeps the first occurrence of each
duplicate group (head kept, later equals filtered out), only removes rows
(order of survivors preserved: the result is a sublist), leaves no two equal
rows, keeps every row value that occurred, and is idempotent. -/
theorem claim6_dedup_idempotent (l : List RawRow) (x : RawRow) :
    List.Sublist (dropDuplicates l) l ∧
    (dropDuplicates l).Nodup ∧
    (x ∈ dropDuplicates l ↔ x ∈ l) ∧
    dropDuplicates (x :: l) =
      x :: dropDuplicates (l.filter fun y => decide (y ≠ x)) ∧
    dropDuplicates (dropDuplicates l) = dropDuplicates l := by
  refine ⟨dedupAux_sublist l [], dedupAux_nodup l [], ?_, ?_, ?_⟩
  · rw [dropDuplicates, mem_dedupAux]
    simp
  · rw [dropDuplicates, dedupAux, if_neg (List.not_mem_nil x)]
    rw [dedupAux_cons_seen l [] x]
    rfl
  · exact dedupAux_eq_self _ [] (dedupAux_nodup l []) (by simp)

/-- Two Row3 values for the C7 witness: one with a NOC, one without. -/
def row3A : Row3 :=
  ⟨1, none, none, none, none, none, none, some ("FRA".data), none, none, none⟩

def row3B : Row3 :=
  ⟨2, none, none, none, none, none, none, none, none, none, none⟩

/-- Claim C7: dropping null-NOC rows removes exactly those rows — survivors
all have a NOC, every row with a NOC survives, the stage only removes rows
(sublist), the row count decreases by exactly the number of null-NOC rows,
and no output row of the whole pipeline has a null NOC. -/
theorem claim7_noc_drop (l : List Row3) (rows : List RawRow) (out : List Row4) :
    List.Sublist (nocDrop l) l ∧
    (∀ r ∈ nocDrop l, r.noc.isSome = true) ∧
    (∀ r ∈ l, r.noc.isSome = true → r ∈ nocDrop l) ∧
    l.length = (nocDrop l).length + (l.filter fun r => r.noc.isNone).length ∧
    (cleanPipeline rows = .ok out → ∀ r ∈ out, r.noc.isSome = true) := by
  refine ⟨List.filter_sublist l, ?_, ?_, ?_, ?_⟩
  · intro r hr
    exact (List.mem_filter.mp hr).2
  · intro r hr hsome
    exact List.mem_filter.mpr ⟨hr, hsome⟩
  · induction l with
    | nil => rfl
    | cons r rs ih =>
      rw [nocDrop] at *
      rw [List.filter_cons, List.filter_cons]
      cases hn : r.noc with
      | none => simp [hn, ih]; omega
      | some v => simp [hn, ih]; omega
  · intro h r hr
    obtain ⟨r3, hr3, _, _, hnoc, _⟩ := out_shape h r hr
    rw [hnoc]
    exact (List.mem_filter.mp hr3).2

/-- Witness for C7: in a concrete two-row table the row with a NOC survives
the drop. -/
theorem claim7_witness : row3A ∈ nocDrop [row3A, row3B] :=
  (claim7_noc_drop [row3A, row3B] [] []).2.2.1 row3A (by decide) (by decide)

/-- Claim C1: the totality guarantee fails on the code.  On a table in which
no Born value contains "in", `str.split("in", expand=True)` yields a single
column and `new_data1[1]` (cell 41) raises `KeyError`; on a table in which
no Measurements value contains "/", the row loop's `row[1]` (cell 71) raises
`KeyError`.  The second table's Born value parses fine, pinning that failure
on the Measurements stage. -/
theorem claim1_totality_bug :
    containsSeq sIn ("1980".data) = false ∧
    cleanPipeline [rowNoIn] = .error .keyError ∧
    containsSeq sSlash ("60 kg".data) = false ∧
    cleanPipeline [rowNoSlash] = .error .keyError := by
  exact ⟨by decide, by decide, by decide, by decide⟩

/-- Claim C2 counterexample: for birth_location "A,B,C" (comma occurring
twice), the second kept fragment is "B", not the entire remainder "B,C" —
text after the second delimiter is discarded, contrary to the claim. -/
theorem claim2_counterexample :
    cellOf sComma (some ("A,B,C".data)) 1 = some ("B".data) ∧
    ("B".data : Str) ≠ ("B,C".data : Str) := by
  exact ⟨by decide, by decide⟩

/-- Claim C2 (amended): each cascaded split splits at every occurrence of
its delimiter (each produced part is free of the delimiter and joining the
parts with the delimiter restores the input, so the split itself loses no
text), and the pipeline keeps exactly parts 0 and 1: the first kept fragment
is the text before the first occurrence, the second the text between the
first and second occurrences (the entire remainder only when the delimiter
occurs exactly once); text after the second occurrence is discarded. -/
theorem claim2_amended (pat s : Str) (hpat : pat ≠ []) :
    pySplit pat s ≠ [] ∧
    List.intercalate pat (pySplit pat s) = s ∧
    (∀ p ∈ pySplit pat s, ¬ pat <:+: p) ∧
    cellOf pat (some s) 0 = (pySplit pat s).get? 0 ∧
    cellOf pat (some s) 1 = (pySplit pat s).get? 1 :=
  ⟨pySplit_ne_nil pat s, pySplit_intercalate hpat s,
   pySplit_parts_not_infix hpat s, rfl, rfl⟩

/-- Witness for C2 (amended): the comma split of "A,B,C" joins back to
"A,B,C". -/
theorem claim2_amended_witness :
    List.intercalate sComma (pySplit sComma ("A,B,C".data)) = ("A,B,C".data : Str) :=
  (claim2_amended sComma ("A,B,C".data) (by decide)).2.1

/-- Claim C3: on Born = "12 January 1980 in Paris, France (Île-de-France)"
the pipeline produces birth_date 1980-01-12 (month name replaced by its
hyphen-surrounded two-digit code, then parsed as "%d-%m-%Y"), City "Paris",
Region "France" and Country "Île-de-France" (closing parenthesis
stripped). -/
theorem claim3_roundtrip :
    (runRow rowParis).map (fun r => (r.birth_date, r.city, r.region, r.country)) =
      some (some ⟨1980, 1, 12⟩, some ("Paris".data), some ("France".data),
        some ("Île-de-France".data)) := by
  decide

/-- Claim C4: Measurements disambiguation.  With no "/" in the value, a
fragment containing "cm" becomes the height (with the unit suffix removed
and coerced to a number) and the weight stays null; a fragment containing
"kg" (and no "cm") becomes the weight; a fragment with neither marker
leaves both null.  With two fragments, the first is always assigned to
height and the second to weight, regardless of the unit markers present.
Concretely: "178 cm" ↦ (178, null), "75 kg" ↦ (null, 75),
"178 cm / 75 kg" ↦ (178, 75). -/
theorem claim4_measurements :
    (∀ s : Str, containsSeq sSlash s = false → containsSeq sCm (pyStrip s) = true →
      measPair (some s) = (parseRat (replaceAll sCmUnit [] (pyStrip s)), none)) ∧
    (∀ s : Str, containsSeq sSlash s = false → containsSeq sCm (pyStrip s) = false →
      containsSeq sKg (pyStrip s) = true →
      measPair (some s) = (none, parseRat (replaceAll sKgUnit [] (pyStrip s)))) ∧
    (∀ s : Str, containsSeq sSlash s = false → containsSeq sCm (pyStrip s) = false →
      containsSeq sKg (pyStrip s) = false → measPair (some s) = (none, none)) ∧
    (∀ s p0 p1 : Str, (pySplit sSlash s).get? 0 = some p0 →
      (pySplit sSlash s).get? 1 = some p1 →
      measPair (some s) = (parseRat (replaceAll sCmUnit [] (pyStrip p0)),
        parseRat (replaceAll sKgUnit [] (pyStrip p1)))) ∧
    measPair (some ("178 cm".data)) = (some 178, none) ∧
    measPair (some ("75 kg".data)) = (none, some 75) ∧
    measPair (some ("178 cm / 75 kg".data)) = (some 178, some 75) := by
  refine ⟨?_, ?_, ?_, ?_, by decide, by decide, by decide⟩
  · intro s h1 h2
    simp [measPair, cellOf, containsSeq_false_split h1, measAssign, h2]
  · intro s h1 h2 h3
    simp [measPair, cellOf, containsSeq_false_split h1, measAssign, h2, h3]
  · intro s h1 h2 h3
    simp [measPair, cellOf, containsSeq_false_split h1, measAssign, h2, h3]
  · intro s p0 p1 h0 h1
    rw [List.get?_eq_getElem?] at h0 h1
    simp [measPair, cellOf, h0, h1, measAssign]

/-- Witness for C4: the single-fragment "cm" branch at "180 cm". -/
theorem claim4_witness :
    measPair (some ("180 cm".data)) =
      (parseRat (replaceAll sCmUnit [] (pyStrip ("180 cm".data))), none) :=
  claim4_measurements.1 ("180 cm".data) (by decide) (by decide)

/-! ### The mode statistic (claim C5) -/

theorem mfFold_spec (l : List Rat) :
    ∀ (l' : List Rat) (b : Rat),
      ∃ m, List.foldl (mfStep l) (some b) l' = some m ∧
        (m = b ∨ m ∈ l') ∧
        l.count b ≤ l.count m ∧
        (l.count b = l.count m → m ≤ b) ∧
        (∀ x ∈ l', l.count x ≤ l.count m ∧ (l.count x = l.count m → m ≤ x)) := by
  intro l'
  induction l' with
  | nil =>
    intro b
    exact ⟨b, rfl, Or.inl rfl, le_rfl, fun _ => le_rfl, by simp⟩
  | cons x xs ih =>
    intro b
    rw [List.foldl_cons]
    by_cases hc : l.count x > l.count b ∨ (l.count x = l.count b ∧ x < b)
    · have hstep : mfStep l (some b) x = some x := by rw [mfStep, if_pos hc]
      rw [hstep]
      obtain ⟨m, hm, hmem, hcnt, htie, hall⟩ := ih x
      refine ⟨m, hm, ?_, ?_, ?_, ?_⟩
      · rcases hmem with rfl | h
        · exact Or.inr (List.mem_cons_self _ _)
        · exact Or.inr (List.mem_cons_of_mem _ h)
      · rcases hc with h | ⟨he, _⟩
        · omega
        · omega
      · intro hbm
        rcases hc with h | ⟨he, hlt⟩
        · omega
        · have hxm : l.count x = l.count m := by omega
          exact le_of_lt (lt_of_le_of_lt (htie hxm) hlt)
      · intro y hy
        rcases List.mem_cons.mp hy with rfl | hy'
        · exact ⟨hcnt, htie⟩
        · exact hall y hy'
    · have hstep : mfStep l (some b) x = some b := by rw [mfStep, if_neg hc]
      rw [hstep]
      obtain ⟨m, hm, hmem, hcnt, htie, hall⟩ := ih b
      push_neg at hc
      obtain ⟨hc1, hc2⟩ := hc
      refine ⟨m, hm, ?_, hcnt, htie, ?_⟩
      · rcases hmem with rfl | h
        · exact Or.inl rfl
        · exact Or.inr (List.mem_cons_of_mem _ h)
      · intro y hy
        rcases List.mem_cons.mp hy with rfl | hy'
        · refine ⟨le_trans hc1 hcnt, ?_⟩
          intro hxm
          have hxb : l.count y = l.count b := by omega
          have hbm : l.count b = l.count m := by omega
          exact le_trans (htie hbm) (hc2 hxb)
        · exact hall y hy'

theorem mostFrequent_spec {l : List Rat} (hl : l ≠ []) :
    ∃ m, mostFrequent l = some m ∧ m ∈ l ∧
      (∀ x ∈ l, l.count x ≤ l.count m) ∧
      (∀ x ∈ l, l.count x = l.count m → m ≤ x) := by
  cases l with
  | nil => exact absurd rfl hl
  | cons y ys =>
    rw [mostFrequent, List.foldl_cons]
    have hstep : mfStep (y :: ys) none y = some y := rfl
    rw [hstep]
    obtain ⟨m, hm, hmem, hcnt, htie, hall⟩ := mfFold_spec (y :: ys) ys y
    refine ⟨m, hm, ?_, ?_, ?_⟩
    · rcases hmem with rfl | h
      · exact List.mem_cons_self _ _
      · exact List.mem_cons_of_mem _ h
    · intro x hx
      rcases List.mem_cons.mp hx with rfl | h
      · exact hcnt
      · exact (hall x h).1
    · intro x hx hxe
      rcases List.mem_cons.mp hx with rfl | h
      · exact htie hxe
      · exact (hall x h).2 hxe

/-- The value the code's imputer writes into a column's nulls. -/
def colMode (col : List (Option Rat)) : Rat :=
  (mostFrequent (col.filterMap id)).getD 0

/-- Modelled from the spec: the imputation statistic as the claim words
it — the most frequent value with ties broken in favour of the
first-encountered value in the column's top-to-bottom order. -/
def mostFrequentFirstSeen (l : List Rat) : Option Rat :=
  l.foldl
    (fun acc x =>
      match acc with
      | none => some x
      | some b => if l.count x > l.count b then some x else some b)
    none

def tieCol : List (Option Rat) := [some 2, some 1, some 2, some 1, none]

/-- Claim C5 counterexample: in the column [2, 1, 2, 1, null] the values 1
and 2 are equally frequent.  The first-encountered tie-break the claim
states would fill the null with 2, but the code (sklearn's most_frequent,
i.e. scipy's mode) fills it with the smallest tied value 1. -/
theorem claim5_counterexample :
    mostFrequentFirstSeen (tieCol.filterMap id) = some 2 ∧
    imputeCol tieCol = .ok [some 2, some 1, some 2, some 1, some 1] ∧
    (some (1 : Rat) ≠ some (2 : Rat)) := by
  exact ⟨by decide, by decide, by decide⟩

/-- Claim C5 (amended): for every numeric column that still contains nulls
(and is not entirely null), each null is replaced by the most frequent
non-null value of that column, computed independently per column, with ties
between equally frequent values broken in favour of the smallest value. -/
theorem claim5_impute (col : List (Option Rat))
    (h : col.all (·.isSome) = false) (hnn : col.filterMap id ≠ []) :
    colMode col ∈ col.filterMap id ∧
    (∀ x ∈ col.filterMap id,
      (col.filterMap id).count x ≤ (col.filterMap id).count (colMode col)) ∧
    (∀ x ∈ col.filterMap id,
      (col.filterMap id).count x = (col.filterMap id).count (colMode col) →
        colMode col ≤ x) ∧
    imputeCol col = .ok (col.map fun v => some (v.getD (colMode col))) := by
  obtain ⟨m, hm, hmem, hcnt, htie⟩ := mostFrequent_spec hnn
  simp only [colMode, hm, Option.getD_some]
  refine ⟨hmem, hcnt, htie, ?_⟩
  rw [imputeCol, if_neg (by simp [h]), hm]

/-- Witness for C5 (amended): the tie column is imputed with its mode. -/
theorem claim5_witness :
    imputeCol tieCol = .ok (tieCol.map fun v => some (v.getD (colMode tieCol))) :=
  (claim5_impute tieCol (by decide) (by decide)).2.2.2

/-- Claim C8: in every successful pipeline run, no output row has a null in
City, Region, Country, Affiliations or birth_date; string nulls were filled
with the literal "Unknown" and birth_date nulls with the sentinel
1975-01-01 (non-null values pass through unchanged); and the output columns
are exactly the ordered twelve-column list of cell 76. -/
theorem claim8_defaults (rows : List RawRow) (out : List Row4)
    (h : cleanPipeline rows = .ok out) :
    (∀ r ∈ out, r.city.isSome = true ∧ r.region.isSome = true ∧
      r.country.isSome = true ∧ r.affiliations.isSome = true ∧
      r.birth_date.isSome = true) ∧
    (∀ r ∈ out, ∃ r3, r3 ∈ nocDrop (row3sOf rows) ∧
      r.city = some (r3.city.getD sUnknown) ∧
      r.region = some (r3.region.getD sUnknown) ∧
      r.country = some (r3.country.getD sUnknown) ∧
      r.affiliations = some (r3.affiliations.getD sUnknown) ∧
      r.birth_date = some (r3.birth_date.getD sentinelDate)) ∧
    finalColumns = ["athlete_id", "name", "Sex", "birth_date", "City",
      "Region", "Country", "NOC", "height_cm", "weight_kg", "Roles",
      "Affiliations"] := by
  refine ⟨?_, ?_, rfl⟩
  · intro r hr
    obtain ⟨r3, _, _, _, _, hc, hreg, hcty, haff, hbd⟩ := out_shape h r hr
    rw [hc, hreg, hcty, haff, hbd]
    simp [orUnknown_getD]
  · intro r hr
    obtain ⟨r3, hr3, _, _, _, hc, hreg, hcty, haff, hbd⟩ := out_shape h r hr
    exact ⟨r3, hr3, by rw [hc, orUnknown_getD], by rw [hreg, orUnknown_getD],
      by rw [hcty, orUnknown_getD], by rw [haff, orUnknown_getD], hbd⟩

/-- Witness for C8: on a concrete run, every output row has all five
columns filled. -/
theorem claim8_witness :
    (okRows (cleanPipeline [rowParis])).all
      (fun r => r.city.isSome && r.region.isSome && r.country.isSome &&
        r.affiliations.isSome && r.birth_date.isSome) = true := by
  have h := claim8_defaults [rowParis] (okRows (cleanPipeline [rowParis])) rfl
  rw [List.all_eq_true]
  intro r hr
  obtain ⟨h1, h2, h3, h4, h5⟩ := h.1 r hr
  simp [h1, h2, h3, h4, h5]

theorem no_space_of_orUnknown (v : Option Str) {s : Str}
    (hnm : ∀ c, v = some c → ' ' ∉ c) (h : orUnknown v = some s) :
    s.contains ' ' = false := by
  cases v with
  | none =>
    have hs : s = sUnknown := by simpa [orUnknown] using h.symm
    subst hs
    decide
  | some c =>
    have hs : c = s := by simpa [orUnknown] using h
    subst hs
    exact contains_false_of_not_mem (hnm _ rfl)

/-- Claim C9: cell 46 removes every space character from birth_location
(not only surrounding whitespace), so every parsed location fragment is
space-free; in every successful pipeline run no output City, Region or
Country value contains a space; concretely, a birth place "New York" is
emitted as City "NewYork". -/
theorem claim9_space_removal :
    (∀ (born : Option Str) (s : Str), locOf born = some s →
      s.contains ' ' = false) ∧
    (∀ (rows : List RawRow) (out : List Row4), cleanPipeline rows = .ok out →
      ∀ r ∈ out, ∀ s : Str,
        (r.city = some s → s.contains ' ' = false) ∧
        (r.region = some s → s.contains ' ' = false) ∧
        (r.country = some s → s.contains ' ' = false)) ∧
    (runRow rowNewYork).bind (fun r => r.city) = some ("NewYork".data) := by
  refine ⟨?_, ?_, by decide⟩
  · intro born s h
    exact contains_false_of_not_mem (not_space_locOf h)
  · intro rows out h r hr s
    obtain ⟨r3, hr3, _, _, _, hc, hreg, hcty, _, _⟩ := out_shape h r hr
    have hr3m : r3 ∈ row3sOf rows := (List.mem_filter.mp hr3).1
    obtain ⟨r2, _, rfl⟩ := List.mem_map.mp hr3m
    refine ⟨fun hcs => ?_, fun hrs => ?_, fun hcos => ?_⟩
    · exact no_space_of_orUnknown ((bornRowFn r2).city)
        (fun c hc2 => not_space_cityOf hc2) (by rw [← hc]; exact hcs)
    · exact no_space_of_orUnknown ((bornRowFn r2).region)
        (fun c hc2 => not_space_regionOf hc2) (by rw [← hreg]; exact hrs)
    · exact no_space_of_orUnknown ((bornRowFn r2).country)
        (fun c hc2 => not_space_countryOf hc2) (by rw [← hcty]; exact hcos)

/-- Witness for C9: the parsed location of a concrete Born value with
"New York" is space-free. -/
theorem claim9_witness :
    List.contains ("NewYork,USA(NY)".data) ' ' = false :=
  claim9_space_removal.1 (some ("1 July 1990 in New York, USA (NY)".data))
    ("NewYork,USA(NY)".data) (by decide)

/-- Claim C10: the output name column is the Used name with every "•"
replaced by a single space (no bullet survives), and the Full name field
never influences the result of the name stage (it is dropped with the Used
name at cell 28). -/
theorem claim10_used_name :
    (∀ r : Row1, (toRow2 r).name = r.used_name.map (replaceAll sBullet sSpace)) ∧
    (∀ (r : Row1) (v : Option Str), toRow2 { r with full_name := v } = toRow2 r) ∧
    (∀ s : Str, (replaceAll sBullet sSpace s).contains '•' = false) ∧
    replaceAll sBullet sSpace ("Jean•Pierre•Henri".data) =
      ("Jean Pierre Henri".data : Str) := by
  refine ⟨fun r => rfl, fun r v => rfl, ?_, by decide⟩
  intro s
  have hb : sBullet = ['•'] := rfl
  rw [hb]
  exact contains_false_of_not_mem (not_mem_replaceAll_single (by decide) s)

end Bios
